import Mathlib

/-!
Verification development for the guest/contact name-matching core of the
repository (file `src/logic.py`).

The Python code is shallowly embedded: strings are Lean `String`s, Python
floats are modelled by exact rationals (`ℚ`), Python `int()` / `round()` get
explicit models (`pyInt`, `pyRound`), and pandas data frames are lists of
records.  A pandas operation that raises (`int()` of the `NaN` produced by
`max()` on an empty column) is modelled by `Option`, with `none` standing for
the raised exception.  The two third-party scoring dependencies, `rapidfuzz`
(`fuzz.ratio`, `fuzz.partial_ratio`, `fuzz.token_set_ratio`,
`distance.Levenshtein.normalized_similarity`) and `unidecode`, are embedded
from their published algorithms and character tables, restricted for
`unidecode` to the code points exercised here.
-/

set_option maxRecDepth 100000

namespace GuestMatch

/-- Whitespace as matched by Python's `\s` (for `str` patterns) and stripped
by `str.strip()`: the ASCII whitespace control characters plus the Unicode
space separators.  These are the characters relevant to `_space_re`,
`_token_re` and `.strip()` in `logic.py`. -/
def isPySpace (c : Char) : Bool :=
  c = ' ' ∨ c = '\t' ∨ c = '\n' ∨ c = '\r' ∨ c.toNat = 11 ∨ c.toNat = 12 ∨
  (28 ≤ c.toNat ∧ c.toNat ≤ 31) ∨ c.toNat = 133 ∨ c.toNat = 160 ∨
  c.toNat = 5760 ∨ (8192 ≤ c.toNat ∧ c.toNat ≤ 8202) ∨ c.toNat = 8232 ∨
  c.toNat = 8233 ∨ c.toNat = 8239 ∨ c.toNat = 8287 ∨ c.toNat = 12288

/-- Character class of `_punc_re = re.compile(r"[\|\\/()\[\]\"'׳״.,\-]+")` in
`logic.py` line 70: pipe, backslash, slash, parentheses, square brackets,
double quote, apostrophe (code point 39), Hebrew geresh and gershayim,
period, comma, hyphen. -/
def isPunc (c : Char) : Bool :=
  c = '|' ∨ c = '\\' ∨ c = '/' ∨ c = '(' ∨ c = ')' ∨ c = '[' ∨ c = ']' ∨
  c.toNat = 34 ∨ c.toNat = 39 ∨ c.toNat = 1523 ∨ c.toNat = 1524 ∨
  c = '.' ∨ c = ',' ∨ c = '-'

/-- Model of Python `str.lower()` on one character.  Only the ASCII range is
case-mapped; every code point appearing in this development outside ASCII
(Hebrew letters, CJK) is caseless, so the identity is faithful there. -/
def pyLowerChar (c : Char) : Char :=
  if 'A' ≤ c ∧ c ≤ 'Z' then Char.ofNat (c.toNat + 32) else c

/-- Worker for `puncSub`.  The flag records whether the previous character
belonged to a punctuation run whose single replacement space has already
been emitted. -/
def puncSubAux : Bool → List Char → List Char
  | _, [] => []
  | inRun, c :: cs =>
    if isPunc c then
      if inRun then puncSubAux true cs else ' ' :: puncSubAux true cs
    else c :: puncSubAux false cs

/-- Model of `_punc_re.sub(" ", t)` (`logic.py` line 79): each maximal run
of punctuation characters is replaced by a single space. -/
def puncSub (l : List Char) : List Char :=
  puncSubAux false l

/-- Worker for `collapseWs`, with the same run flag as `puncSubAux`. -/
def collapseWsAux : Bool → List Char → List Char
  | _, [] => []
  | inRun, c :: cs =>
    if isPySpace c then
      if inRun then collapseWsAux true cs else ' ' :: collapseWsAux true cs
    else c :: collapseWsAux false cs

/-- Model of `_space_re.sub(" ", t)` (`logic.py` line 80): each maximal run
of whitespace is replaced by a single space. -/
def collapseWs (l : List Char) : List Char :=
  collapseWsAux false l

/-- Model of Python `str.strip()`: remove leading and trailing whitespace. -/
def pyStripList (l : List Char) : List Char :=
  ((l.dropWhile isPySpace).reverse.dropWhile isPySpace).reverse

/-- String-level `str.strip()`, used by `full_score` line 209. -/
def pyStripStr (s : String) : String :=
  String.mk (pyStripList s.data)

/-- Transliteration table for the non-ASCII code points exercised in this
development, transcribed from the `unidecode` package's character tables:
the Hebrew alphabet block (alef maps to the apostrophe, code point 39, and
ayin to the backtick, code point 96) and a CJK ideograph whose entry
carries an uppercase letter and a trailing space, as all CJK entries do. -/
def udTable : List (Char × String) :=
  [⟨'א', String.mk [Char.ofNat 39]⟩, ⟨'ב', "b"⟩, ⟨'ג', "g"⟩, ⟨'ד', "d"⟩,
   ⟨'ה', "h"⟩, ⟨'ו', "v"⟩, ⟨'ז', "z"⟩, ⟨'ח', "kh"⟩, ⟨'ט', "t"⟩, ⟨'י', "y"⟩,
   ⟨'ך', "k"⟩, ⟨'כ', "k"⟩, ⟨'ל', "l"⟩, ⟨'ם', "m"⟩, ⟨'מ', "m"⟩, ⟨'ן', "n"⟩,
   ⟨'נ', "n"⟩, ⟨'ס', "s"⟩, ⟨'ע', String.mk [Char.ofNat 96]⟩, ⟨'ף', "p"⟩,
   ⟨'פ', "p"⟩, ⟨'ץ', "ts"⟩, ⟨'צ', "ts"⟩, ⟨'ק', "q"⟩, ⟨'ר', "r"⟩,
   ⟨'ש', "sh"⟩, ⟨'ת', "t"⟩, ⟨'中', "Zhong "⟩]

/-- Model of `unidecode.unidecode` on a single character: code points below
128 pass through unchanged, mapped code points are replaced by their table
entry, and unmapped code points are dropped (the package's default). -/
def unidecodeChar (c : Char) : List Char :=
  if c.toNat < 128 then [c]
  else
    match udTable.find? (fun p => p.1 = c) with
    | some p => p.2.data
    | none => []

/-- Model of `unidecode.unidecode` on a character list. -/
def pyUnidecode : List Char → List Char
  | [] => []
  | c :: cs => unidecodeChar c ++ pyUnidecode cs

/-- Embedding of `normalize` (`logic.py` lines 74-81): falsy input maps to
the empty string (`None` is modelled by `""`, both take the early return);
otherwise lowercase, replace punctuation runs by a space, collapse
whitespace runs, strip, and transliterate last. -/
def normalize (txt : String) : String :=
  if txt = "" then ""
  else String.mk (pyUnidecode (pyStripList (collapseWs (puncSub (txt.data.map pyLowerChar)))))

/-- Embedding of `SUFFIX_TOKENS` (`logic.py` lines 59-62). -/
def SUFFIX_TOKENS : List String :=
  ["מילואים", "miluyim", "miloyim", "mil", "נייד", "סלולר", "סלולרי",
   "בית", "עבודה", "עסקי", "אישי", "משרד"]

/-- Embedding of `GENERIC_TOKENS` (`logic.py` line 56). -/
def GENERIC_TOKENS : List String :=
  ["של", "ה", "בן", "בת", "משפחת", "אחי", "אחות", "דוד", "דודה"]

/-- Embedding of `_clean_token` (`logic.py` lines 83-91).  String primitives
(`startswith`, slicing, `len`, `endswith`) are expressed on the character
list.  Note the two stripping steps are independent `if`s in the source:
the trailing-`i` test applies to the token as left by the leading-`v`
strip. -/
def clean_token (tok : String) : String :=
  if tok ∈ SUFFIX_TOKENS then ""
  else
    let t1 := if tok.data.head? = some 'v' ∧ tok.data.length > 2
              then String.mk (tok.data.drop 1) else tok
    if t1.data.length ≥ 4 ∧ t1.data.getLast? = some 'i'
    then String.mk t1.data.dropLast else t1

/-- Worker for `splitWs`, a model of `re.split(r"\s+", name)`: fields are
the segments between maximal whitespace runs, including an empty field at
an edge when the string starts or ends with whitespace (exactly
`re.split`'s behaviour).  `some acc` holds the reversed characters of the
field being built; `none` means a whitespace run is being skipped. -/
def splitWsGo : Option (List Char) → List Char → List String
  | some acc, [] => [String.mk acc.reverse]
  | none, [] => [""]
  | some acc, c :: cs =>
    if isPySpace c then String.mk acc.reverse :: splitWsGo none cs
    else splitWsGo (some (c :: acc)) cs
  | none, c :: cs =>
    if isPySpace c then splitWsGo none cs
    else splitWsGo (some [c]) cs

/-- Field list of `_token_re.split(name)` (`logic.py` line 95). -/
def splitWs (s : String) : List String :=
  splitWsGo (some []) s.data

/-- Embedding of `_tokens` (`logic.py` lines 93-96): clean every raw token,
then keep the non-empty ones that are not generic relational words. -/
def tokens (name : String) : List String :=
  ((splitWs name).map clean_token).filter
    (fun t => decide (t ≠ "" ∧ t ∉ GENERIC_TOKENS))

example : normalize "Dan--Cohen" = "dan cohen" := by decide
example : normalize "דן כהן" = "dn khn" := by decide
example : normalize "中" = "Zhong " := by decide
example : tokens "dan cohen mil" = ["dan", "cohen"] := by decide
example : clean_token "vdani" = "dan" := by decide
example : tokens " a  b " = ["a", "b"] := by decide

/-! Exact rational arithmetic layer.  Python float arithmetic is modelled
by exact arithmetic on ℚ.  The standard `Rat` operations are marked
`@[irreducible]` in this toolchain and so cannot be evaluated by `decide`;
the operations below build every result with the reducible smart
constructor `Rat.divInt` instead, and are proved equal to the standard
field operations. -/

/-- Reducible model of rational multiplication. -/
def qmul (a b : ℚ) : ℚ :=
  mkRat (a.num * b.num) (a.den * b.den)

/-- Reducible model of rational addition. -/
def qadd (a b : ℚ) : ℚ :=
  Rat.divInt (a.num * b.den + a.den * b.num) ((a.den : ℤ) * (b.den : ℤ))

/-- Reducible model of rational negation. -/
def qneg (a : ℚ) : ℚ :=
  Rat.divInt (-a.num) (a.den : ℤ)

/-- Reducible model of rational subtraction. -/
def qsub (a b : ℚ) : ℚ :=
  qadd a (qneg b)

/-- Reducible model of rational division (division by zero yields the junk
value 0 on both sides). -/
def qdiv (a b : ℚ) : ℚ :=
  Rat.divInt (a.num * b.den) ((a.den : ℤ) * b.num)

/-- Reducible binary maximum on ℚ. -/
def qmax (a b : ℚ) : ℚ :=
  if a ≤ b then b else a

/-- Reducible floor of a rational number. -/
def qfloor (q : ℚ) : ℤ :=
  q.num / (q.den : ℤ)

theorem qmul_eq (a b : ℚ) : qmul a b = a * b :=
  (Rat.mul_eq_mkRat a b).symm

theorem qadd_eq (a b : ℚ) : qadd a b = a + b :=
  (Rat.add_num_den a b).symm

theorem qneg_eq (a : ℚ) : qneg a = -a := by
  unfold qneg
  rw [← Rat.neg_divInt, Rat.num_divInt_den]

theorem qsub_eq (a b : ℚ) : qsub a b = a - b := by
  rw [qsub, qadd_eq, qneg_eq, sub_eq_add_neg]

theorem qdiv_eq (a b : ℚ) : qdiv a b = a / b :=
  (Rat.div_def' a b).symm

theorem qmax_eq (a b : ℚ) : qmax a b = max a b :=
  (max_def a b).symm

theorem qfloor_eq (q : ℚ) : qfloor q = ⌊q⌋ :=
  Rat.floor_def.symm

/-! Dynamic-programming rows for the two string distances used by
`rapidfuzz`: plain Levenshtein (insert/delete/substitute, unit costs) for
`distance.Levenshtein`, and the longest-common-subsequence length from
which the Indel distance underlying `fuzz.ratio` is obtained. -/

/-- One Levenshtein DP row step.  Arguments: remaining characters of `b`,
the previous row shifted so its head is the cell above, the diagonal cell
and the cell to the left. -/
def levRowGo (x : Char) : List Char → List Nat → Nat → Nat → List Nat
  | [], _, _, _ => []
  | _ :: _, [], _, _ => []
  | y :: ys, up :: rest, diag, left =>
    let cur := min (min (up + 1) (left + 1)) (diag + if x = y then 0 else 1)
    cur :: levRowGo x ys rest up cur

/-- Levenshtein DP driver over the rows. -/
def levLoop (bs : List Char) : List Char → List Nat → Nat → Nat
  | [], row, _ => row.getLastD 0
  | x :: xs, row, i =>
    let next :=
      match row with
      | [] => [i + 1]
      | d :: rest => (i + 1) :: levRowGo x bs rest d (i + 1)
    levLoop bs xs next (i + 1)

/-- Unit-cost Levenshtein distance (model of `rapidfuzz.distance.Levenshtein.distance`). -/
def levenshtein (a b : String) : Nat :=
  levLoop b.data a.data (List.range (b.data.length + 1)) 0

/-- One LCS DP row step, same argument convention as `levRowGo`. -/
def lcsRowGo (x : Char) : List Char → List Nat → Nat → Nat → List Nat
  | [], _, _, _ => []
  | _ :: _, [], _, _ => []
  | y :: ys, up :: rest, diag, left =>
    let cur := if x = y then diag + 1 else max up left
    cur :: lcsRowGo x ys rest up cur

/-- LCS DP driver over the rows. -/
def lcsLoop (bs : List Char) : List Char → List Nat → Nat
  | [], row => row.getLastD 0
  | x :: xs, row =>
    let next :=
      match row with
      | [] => [0]
      | d :: rest => 0 :: lcsRowGo x bs rest d 0
    lcsLoop bs xs next

/-- Longest-common-subsequence length. -/
def lcsLen (a b : List Char) : Nat :=
  lcsLoop b a (List.replicate (b.length + 1) 0)

/-- Indel distance (Levenshtein without substitutions), the metric behind
`fuzz.ratio`: `|a| + |b| - 2·lcs(a, b)`. -/
def indelDist (a b : List Char) : Nat :=
  a.length + b.length - 2 * lcsLen a b

/-- Model of `fuzz.ratio` on character lists: the Indel normalized
similarity scaled to 0-100, with 100 for two empty strings. -/
def fuzz_ratioL (a b : List Char) : ℚ :=
  let s := a.length + b.length
  if s = 0 then 100 else qmul (qsub 1 (qdiv (indelDist a b : ℚ) (s : ℚ))) 100

/-- Model of `fuzz.ratio` (`logic.py` line 223 uses it on first tokens). -/
def fuzz_ratioQ (a b : String) : ℚ :=
  fuzz_ratioL a.data b.data

/-- Model of `distance.Levenshtein.normalized_similarity`: one minus the
distance divided by the longer length, and 1 when both are empty. -/
def levNormSim (a b : String) : ℚ :=
  let m := max a.data.length b.data.length
  if m = 0 then 1 else qsub 1 (qdiv (levenshtein a b : ℚ) (m : ℚ))

/-- Embedding of `_fuzzy_eq` (`logic.py` lines 98-100): exact equality or
normalized Levenshtein similarity at least 0.9. -/
def fuzzy_eq (a b : String) : Bool :=
  a = b ∨ levNormSim a b ≥ Rat.divInt 9 10

/-- Inner loop of `_fuzzy_jaccard`'s greedy matching: the first contact
token not yet consumed (by value, `used` is a Python `set` of strings)
that is fuzzy-equal to the guest token. -/
def jacFind (g : String) (used : List String) : List String → Option String
  | [] => none
  | c :: cs => if c ∉ used ∧ fuzzy_eq g c then some c else jacFind g used cs

/-- Outer loop of `_fuzzy_jaccard` (`logic.py` lines 104-112): each guest
token consumes at most one contact-token value. -/
def jacMatched : List String → List String → List String → Nat
  | [], _, _ => 0
  | g :: gs, cs, used =>
    match jacFind g used cs with
    | some c => jacMatched gs cs (c :: used) + 1
    | none => jacMatched gs cs used

/-- Worker for `firstDedup` carrying the set of values already seen. -/
def firstDedupAux : List String → List String → List String
  | _, [] => []
  | seen, x :: xs =>
    if x ∈ seen then firstDedupAux seen xs
    else x :: firstDedupAux (x :: seen) xs

/-- Distinct values of a list in first-occurrence order; its length models
Python's `len(set(l))`. -/
def firstDedup (l : List String) : List String :=
  firstDedupAux [] l

/-- Embedding of `_fuzzy_jaccard` (`logic.py` lines 102-114).  Note the
union size is computed from `len(set(gs))` and `len(set(cs))`, not from the
list lengths, and the `matched / union` float division is modelled in ℚ. -/
def fuzzy_jaccard (gs cs : List String) : ℚ :=
  let matched := jacMatched gs cs []
  let union : ℤ := (firstDedup gs).length + (firstDedup cs).length - matched
  if union = 0 then 1 else qdiv (matched : ℚ) (union : ℚ)

/-- Python's `" ".join`. -/
def joinSep (sep : String) : List String → String
  | [] => ""
  | [x] => x
  | x :: xs => x ++ sep ++ joinSep sep xs

/-- Python's no-argument `str.split()`, used inside `fuzz.token_set_ratio`:
whitespace-separated words, empty fields dropped. -/
def pySplitWords (s : String) : List String :=
  (splitWs s).filter (fun t => decide (t ≠ ""))

/-- Python's `<` on strings: code-point lexicographic order.  (The
built-in `String.lt` is semantically the same but its byte-iterator
implementation does not reduce in the kernel.) -/
def strLtL : List Char → List Char → Bool
  | [], [] => false
  | [], _ :: _ => true
  | _ :: _, [] => false
  | a :: as, b :: bs =>
    if a.toNat < b.toNat then true
    else if b.toNat < a.toNat then false
    else strLtL as bs

/-- Python's `<=` on strings, as the negation of the strict order. -/
def pyStrLe (a b : String) : Bool :=
  !(strLtL b.data a.data)

/-- Python string order sort, modelling `sorted` on string sets inside
`fuzz.token_set_ratio`. -/
def sortStrings (l : List String) : List String :=
  List.insertionSort (fun a b : String => pyStrLe a b = true) l

/-- Model of `fuzz.token_set_ratio`, from the `rapidfuzz` reference
implementation: decompose the two word sets into intersection and
differences; return 100 when one side is contained in the other; otherwise
the maximum of the plain ratio of the joined differences and the two
known-distance ratios of the joined intersection against each
intersection-plus-difference string. -/
def token_set_ratioQ (s1 s2 : String) : ℚ :=
  let ta := firstDedup (pySplitWords s1)
  let tb := firstDedup (pySplitWords s2)
  if ta = [] ∨ tb = [] then 0
  else
    let inter := sortStrings (ta.filter (fun x => decide (x ∈ tb)))
    let dab := sortStrings (ta.filter (fun x => decide (x ∉ tb)))
    let dba := sortStrings (tb.filter (fun x => decide (x ∉ ta)))
    if inter ≠ [] ∧ (dab = [] ∨ dba = []) then 100
    else
      let sAB := joinSep " " dab
      let sBA := joinSep " " dba
      let sectLen := (joinSep " " inter).data.length
      let one : ℕ := if sectLen ≠ 0 then 1 else 0
      let abLen := sAB.data.length
      let baLen := sBA.data.length
      let result := fuzz_ratioQ sAB sBA
      let sectAbRat := qmul (qsub 1 (qdiv ((one + abLen : ℕ) : ℚ) ((sectLen + (sectLen + one + abLen) : ℕ) : ℚ))) 100
      let sectBaRat := qmul (qsub 1 (qdiv ((one + baLen : ℕ) : ℚ) ((sectLen + (sectLen + one + baLen) : ℕ) : ℚ))) 100
      qmax result (qmax sectAbRat sectBaRat)

/-- Python list indexing with negative-index wrap-around (`s[-1]` is the
last element); only the in-range and `-1` cases are ever reached. -/
def pyGet (l : List Char) (i : ℤ) : Char :=
  if 0 ≤ i then l.getD i.toNat (Char.ofNat 0)
  else l.getD (l.length - (-i).toNat) (Char.ofNat 0)

/-- Candidate window scores of `rapidfuzz`'s `_partial_ratio_short_needle`
(`s1` is the needle, not longer than `s2`): ratios of `s1` against the
windows of `s2` hanging off the left edge, the full-length windows, and the
suffix windows, each guarded by the reference implementation's character-set
test on the window's boundary character. -/
def partialWindows (s1 s2 : List Char) : List ℚ :=
  let len1 := s1.length
  let len2 := s2.length
  let pre := ((List.range len1).drop 1).filterMap (fun i =>
    if pyGet s2 (Int.ofNat i - 1) ∈ s1 then some (fuzz_ratioL s1 (s2.take i)) else none)
  let mid := (List.range (len2 - len1)).filterMap (fun i =>
    if pyGet s2 (Int.ofNat i + Int.ofNat len1 - 1) ∈ s1
    then some (fuzz_ratioL s1 ((s2.drop i).take len1)) else none)
  let suf := (List.range' (len2 - len1) len1).filterMap (fun i =>
    if pyGet s2 (Int.ofNat i) ∈ s1 then some (fuzz_ratioL s1 (s2.drop i)) else none)
  pre ++ mid ++ suf

/-- Best window score, starting from the reference implementation's
initial score of 0. -/
def partialShortNeedle (s1 s2 : List Char) : ℚ :=
  (partialWindows s1 s2).foldl qmax 0

/-- Model of `fuzz.partial_ratio` (used by `full_score` line 219): run the
short-needle search with the shorter string as needle; on equal lengths and
a score below 100, also try the swapped roles. -/
def partial_ratioQ (a b : String) : ℚ :=
  let s1 := a.data
  let s2 := b.data
  if s1 = [] ∧ s2 = [] then 100
  else
    let shorter := if s1.length ≤ s2.length then s1 else s2
    let longer := if s1.length ≤ s2.length then s2 else s1
    let res := partialShortNeedle shorter longer
    if res ≠ 100 ∧ s1.length = s2.length then qmax res (partialShortNeedle longer shorter)
    else res

/-- Embedding of the constants of `logic.py` lines 36-39. -/
def AUTO_SCORE : ℤ := 100

/-- Auto-select threshold (`logic.py` line 37). -/
def AUTO_SELECT_TH : ℤ := 93

/-- Display minimum (`logic.py` line 38). -/
def MIN_SCORE_DISPLAY : ℤ := 70

/-- Model of Python `int()` on a float: truncation toward zero. -/
def pyInt (q : ℚ) : ℤ :=
  if 0 ≤ q then qfloor q else -qfloor (qneg q)

/-- Model of Python `round()` to an integer: nearest, ties to even. -/
def pyRound (q : ℚ) : ℤ :=
  let f := qfloor q
  let r := qsub q (f : ℚ)
  if r < Rat.divInt 1 2 then f
  else if Rat.divInt 1 2 < r then f + 1
  else if f % 2 = 0 then f else f + 1

/-- Embedding of `full_score` (`logic.py` lines 205-231).  The return type
is ℚ because the Python function returns an `int` on most paths but passes
the `fuzz.partial_ratio` float through unchanged on the degenerate-token
path (line 219). -/
def full_score (g_norm c_norm : String) : ℚ :=
  if g_norm = "" ∨ c_norm = "" then 0
  else if pyStripStr g_norm = pyStripStr c_norm then (AUTO_SCORE : ℚ)
  else
    let g_t := tokens g_norm
    let c_t := tokens c_norm
    if g_t = c_t then (AUTO_SCORE : ℚ)
    else if g_t = [] ∨ c_t = [] then partial_ratioQ g_norm c_norm
    else
      let tr := qdiv (token_set_ratioQ (joinSep " " g_t) (joinSep " " c_t)) 100
      let fr := qdiv (fuzz_ratioQ g_t.headI c_t.headI) 100
      let jr := fuzzy_jaccard g_t c_t
      let gap := max g_t.length c_t.length - min g_t.length c_t.length
      let penalty : ℚ :=
        if gap ≥ 2 then qdiv ((min g_t.length c_t.length : ℕ) : ℚ) ((max g_t.length c_t.length : ℕ) : ℚ)
        else 1
      let wsum := qadd (qadd (qmul (Rat.divInt 6 10) tr) (qmul (Rat.divInt 2 10) fr))
        (qmul (Rat.divInt 2 10) jr)
      ((pyRound (qmul (qmul wsum penalty) 100) : ℤ) : ℚ)

example : levenshtein "kitten" "sitting" = 3 := by decide
example : full_score "yosi cohen" "yosi cohen" = 100 := by decide
example : full_score "yossi cohen" "cohen yossi" = 84 := by decide

/-- Embedding of `reason_for` (`logic.py` lines 233-240): list the first
one or two cleaned guest tokens that also occur among the contact's
cleaned tokens; otherwise report a high match above the auto-select
threshold; otherwise no reason. -/
def reason_for (g_norm c_norm : String) (score : ℤ) : String :=
  let overlap := (tokens g_norm).filter (fun t => decide (t ∈ tokens c_norm))
  if overlap ≠ [] then "חפיפה: " ++ joinSep ", " (overlap.take 2)
  else if score ≥ AUTO_SELECT_TH then "התאמה גבוהה"
  else ""

/-- Row of the contacts table: the host guarantees a full-name column, a
phone column and the precomputed `norm_name` column. -/
structure Row where
  name : String
  norm_name : String
  phone : String
deriving DecidableEq, Repr

/-- Row of the candidate table produced by `top_matches`: a contact row
together with its `score` and `reason` columns. -/
structure Cand where
  row : Row
  score : ℚ
  reason : String
deriving DecidableEq, Repr

/-- Model of `pandas.Series.max` on the scores column.  The empty case is
never consulted: callers model `int(NaN)` on an empty frame as `none`
before reaching it. -/
def seriesMax : List ℚ → ℚ
  | [] => 0
  | x :: xs => xs.foldl qmax x

/-- Scores column assignment of `top_matches` step 1 (`logic.py` line
363): every contact paired with its `full_score` against the guest. -/
def scoreRows (g : String) (contacts : List Row) : List (Row × ℚ) :=
  contacts.map (fun r => (r, full_score g r.norm_name))

/-- Model of `int(df["score"].max())` over a non-empty contacts table. -/
def maxScoreInt (g : String) (contacts : List Row) : ℤ :=
  pyInt (seriesMax ((scoreRows g contacts).map (fun p => p.2)))

/-- Sort key of `sort_values(["score", NAME_COL], ascending=[False, True])`:
score descending, then full name ascending in Python string order. -/
def rowLEb (a b : Row × ℚ) : Bool :=
  decide (b.2 < a.2) || (decide (a.2 = b.2) && pyStrLe a.1.name b.1.name)

/-- The sort key as a relation, for `List.insertionSort`. -/
def rowRel : Row × ℚ → Row × ℚ → Prop := fun a b => rowLEb a b = true

instance : DecidableRel rowRel :=
  fun a b => instDecidableEqBool (rowLEb a b) true

/-- Model of the `sort_values` call of `top_matches`: a permutation of the
scored rows sorted by the key `rowRel`. -/
def sortCands (l : List (Row × ℚ)) : List (Row × ℚ) :=
  List.insertionSort rowRel l

/-- Embedding of `top_matches` (`logic.py` lines 350-396).  An empty guest
name returns the empty candidate table at once.  On a contacts table with
no rows, `df["score"].max()` is `NaN` and `int(NaN)` raises `ValueError`,
modelled by `none`.  Otherwise: if the maximum score is 100 the shortlist
is the rows scoring ≥ 90, else the rows scoring ≥ 70, else (when that is
empty) the rows scoring ≥ 50 — each sorted by score descending then name
ascending and cut to the first 3 — and the `reason` column is attached. -/
def top_matches (guest_norm : String) (contacts : List Row) : Option (List Cand) :=
  if guest_norm = "" then some []
  else
    match contacts with
    | [] => none
    | _ :: _ =>
      let candidates :=
        if maxScoreInt guest_norm contacts = AUTO_SCORE then
          (sortCands ((scoreRows guest_norm contacts).filter
            (fun p => decide (p.2 ≥ 90)))).take 3
        else
          let c70 := (sortCands ((scoreRows guest_norm contacts).filter
            (fun p => decide (p.2 ≥ (MIN_SCORE_DISPLAY : ℚ))))).take 3
          if c70 = [] then
            (sortCands ((scoreRows guest_norm contacts).filter
              (fun p => decide (p.2 ≥ 50)))).take 3
          else c70
      some (candidates.map (fun p => ⟨p.1, p.2, reason_for guest_norm p.1.norm_name (pyInt p.2)⟩))

/-- Tier selection of `top_matches` before sorting and `head(3)`: the rows
that pass the active threshold (≥ 90 when a perfect match exists, else
≥ 70, else ≥ 50).  `top_matches` returns the first 3 of this set in sorted
order. -/
def tierSel (g : String) (contacts : List Row) : List (Row × ℚ) :=
  if maxScoreInt g contacts = AUTO_SCORE then
    (scoreRows g contacts).filter (fun p => decide (p.2 ≥ 90))
  else if (scoreRows g contacts).filter (fun p => decide (p.2 ≥ (MIN_SCORE_DISPLAY : ℚ))) = [] then
    (scoreRows g contacts).filter (fun p => decide (p.2 ≥ 50))
  else
    (scoreRows g contacts).filter (fun p => decide (p.2 ≥ (MIN_SCORE_DISPLAY : ℚ)))

/-- Embedding of `compute_best_scores` (`logic.py` lines 398-402), row by
row over the guests' `norm_name` column.  A guest with a falsy name gets
0; otherwise the maximum score over the contacts column is taken, which on
an empty contacts table is `NaN` and makes `int()` raise (`none`). -/
def compute_best_scores : List String → List Row → Option (List ℤ)
  | [], _ => some []
  | n :: ns, contacts =>
    let v : Option ℤ :=
      if n = "" then some 0
      else
        match contacts with
        | [] => none
        | _ :: _ =>
          some (pyInt (seriesMax (contacts.map (fun c => full_score n c.norm_name))))
    match v, compute_best_scores ns contacts with
    | some x, some xs => some (x :: xs)
    | _, _ => none

example : compute_best_scores ["", "dan"] [⟨"x", "dan", "1"⟩] = some [0, 100] := by decide
example : top_matches "dan" [⟨"x", "dan", "1"⟩] =
    some [⟨⟨"x", "dan", "1"⟩, 100, "חפיפה: dan"⟩] := by decide

/-! Definitions taken from the specification's wording (not from the
code), used to compare the spec's reading of an algorithm against the
code's behaviour. -/

/-- Per-token cleaning as claim C6 states it: a strict else-if chain in
which the trailing-vowel strip applies only when no leading connective
letter was stripped. -/
def cleanTokenChain (tok : String) : String :=
  if tok ∈ SUFFIX_TOKENS then ""
  else if tok.data.head? = some 'v' ∧ tok.data.length > 2 then String.mk (tok.data.drop 1)
  else if tok.data.length ≥ 4 ∧ tok.data.getLast? = some 'i' then String.mk tok.data.dropLast
  else tok

/-- Contact-token consumption as claim C5 reads: each occurrence of a
contact token may be consumed once; the first not-yet-consumed occurrence
that is fuzzy-equal to the guest token is removed. -/
def consumeFirst (g : String) : List String → Option (List String)
  | [] => none
  | c :: cs =>
    if fuzzy_eq g c then some cs
    else (consumeFirst g cs).map (fun l => c :: l)

/-- Greedy one-to-one occurrence-level match count, per claim C5. -/
def greedyMatch : List String → List String → Nat
  | [], _ => 0
  | g :: gs, cs =>
    match consumeFirst g cs with
    | some cs2 => greedyMatch gs cs2 + 1
    | none => greedyMatch gs cs

/-- The fuzzy-Jaccard signal as claim C5 states it: the greedy match count
divided by `|G| + |C| - matches` over the token-sequence lengths, 1 when
both sequences are empty. -/
def fuzzyJaccardClaim (gs cs : List String) : ℚ :=
  let m := greedyMatch gs cs
  if gs = [] ∧ cs = [] then 1
  else qdiv (m : ℚ) (((gs.length + cs.length - m : ℤ) : ℚ))

/-!  Claim theorems. -/

/-- C9: degenerate inputs yield defined degenerate outputs: `full_score`
returns 0 whenever either argument is the empty string, and `top_matches`
returns an empty candidate table whenever the guest normalized name is
empty. -/
theorem degenerate_inputs_zero :
    (∀ c : String, full_score "" c = 0) ∧ (∀ g : String, full_score g "" = 0) ∧
    (∀ contacts : List Row, top_matches "" contacts = some []) := by
  refine ⟨fun c => ?_, fun g => ?_, fun contacts => ?_⟩
  · simp [full_score]
  · simp [full_score]
  · simp [top_matches]

/-- C7: `full_score` returns exactly 100 whenever its two non-empty inputs
are equal after trimming, or their cleaned token sequences are equal as
ordered sequences; in particular `full_score n n = 100` for non-empty `n`. -/
theorem full_score_auto_match (g c : String) (hg : g ≠ "") (hc : c ≠ "")
    (h : pyStripStr g = pyStripStr c ∨ tokens g = tokens c) :
    full_score g c = 100 := by
  unfold full_score
  rw [if_neg (by simp [hg, hc])]
  rcases h with h | h
  · rw [if_pos h]; norm_num [AUTO_SCORE]
  · by_cases hs : pyStripStr g = pyStripStr c
    · rw [if_pos hs]; norm_num [AUTO_SCORE]
    · rw [if_neg hs]
      dsimp only
      rw [if_pos h]
      norm_num [AUTO_SCORE]

/-- Witness for C7 at a concrete input whose token sequences agree after
cleaning (the suffix token is dropped). -/
theorem full_score_auto_match_witness :
    ("dan cohen" ≠ "" ∧ "dan cohen mil" ≠ "" ∧
      (pyStripStr "dan cohen" = pyStripStr "dan cohen mil" ∨
        tokens "dan cohen" = tokens "dan cohen mil")) ∧
    full_score "dan cohen" "dan cohen mil" = 100 :=
  ⟨⟨by decide, by decide, by decide⟩,
   full_score_auto_match "dan cohen" "dan cohen mil" (by decide) (by decide) (by decide)⟩

/-- C1 (failing evaluation): with duplicated guest tokens the fuzzy-Jaccard
signal exceeds 1 and `full_score` returns 120 > 100, and on the
degenerate-token fallback `full_score` passes the non-integer
`fuzz.partial_ratio` float straight through. -/
theorem full_score_out_of_range_eval :
    full_score "aaaaaaaaaa aaaaaaaaaa" "aaaaaaaaaa aaaaaaaaab" = 120 ∧
    full_score "mil" "mmiill" = Rat.divInt 200 3 :=
  ⟨by decide, by decide⟩

/-- C3 (failing evaluation): on a guests row with a non-empty name and an
empty contacts table, `compute_best_scores` does not return 0 — the
underlying `int(max())` of an empty column raises, modelled by `none`. -/
theorem compute_best_scores_empty_contacts_raises :
    compute_best_scores ["a"] [] = none := by decide

/-- C6 (counterexample): the code strips both the leading connective
letter and the trailing vowel of `"vdani"`, while the claim's else-if
chain would stop after the leading letter. -/
theorem clean_token_counterexample :
    clean_token "vdani" = "dan" ∧ cleanTokenChain "vdani" = "dani" :=
  ⟨by decide, by decide⟩

/-- C6 (amended): the two strips are sequential independent `if`s — when a
token outside the noise set starts with the connective letter, has length
> 2, and the stripped remainder has length ≥ 4 and ends with the vowel
letter, both letters are removed. -/
theorem clean_token_strips_both (tok : String) (h1 : tok ∉ SUFFIX_TOKENS)
    (h2 : tok.data.head? = some 'v') (h3 : tok.data.length > 2)
    (h4 : (tok.data.drop 1).length ≥ 4) (h5 : (tok.data.drop 1).getLast? = some 'i') :
    clean_token tok = String.mk (tok.data.drop 1).dropLast := by
  unfold clean_token
  rw [if_neg h1]
  dsimp only
  rw [if_pos (show tok.data.head? = some 'v' ∧ tok.data.length > 2 from ⟨h2, h3⟩)]
  rw [if_pos (show (String.mk (tok.data.drop 1)).data.length ≥ 4 ∧
    (String.mk (tok.data.drop 1)).data.getLast? = some 'i' from ⟨h4, h5⟩)]

/-- Witness for the amended C6 at `"vdani"`. -/
theorem clean_token_strips_both_witness :
    ("vdani" ∉ SUFFIX_TOKENS ∧ "vdani".data.head? = some 'v' ∧ "vdani".data.length > 2 ∧
      ("vdani".data.drop 1).length ≥ 4 ∧ ("vdani".data.drop 1).getLast? = some 'i') ∧
    clean_token "vdani" = String.mk ("vdani".data.drop 1).dropLast :=
  ⟨⟨by decide, by decide, by decide, by decide, by decide⟩,
   clean_token_strips_both "vdani" (by decide) (by decide) (by decide) (by decide) (by decide)⟩

/-- C5 (counterexample): on `G = [ab, ab]`, `C = [ab]` the code computes
`1/1 = 1` (set-sized union), while the claim's `|G| + |C| - matches`
denominator yields `1/2`. -/
theorem fuzzy_jaccard_counterexample :
    fuzzy_jaccard ["ab", "ab"] ["ab"] = 1 ∧
    fuzzyJaccardClaim ["ab", "ab"] ["ab"] = Rat.divInt 1 2 :=
  ⟨by decide, by decide⟩

/-- C4 (counterexample): transliteration runs after lower-casing and
stripping, so a CJK input normalizes to `"Zhong "` — with an uppercase
letter and a trailing space — which a second `normalize` pass turns into
`"zhong"`. -/
theorem normalize_not_idempotent :
    normalize (normalize "中") ≠ normalize "中" := by decide

/-- C2 (counterexample): with four contacts all qualifying for the active
tier (all score 100 ≥ 90), `top_matches` returns only 3 of them — the
core itself caps the shortlist with `head(3)`. -/
theorem top_matches_cap_counterexample :
    (top_matches "dan cohen"
      [⟨"a", "dan cohen", "1"⟩, ⟨"b", "dan cohen mil", "2"⟩,
       ⟨"c", "dan cohen miloyim", "3"⟩, ⟨"d", "dan cohen miluyim", "4"⟩]).map List.length =
      some 3 ∧
    (([⟨"a", "dan cohen", "1"⟩, ⟨"b", "dan cohen mil", "2"⟩,
       ⟨"c", "dan cohen miloyim", "3"⟩, ⟨"d", "dan cohen miluyim", "4"⟩] : List Row).filter
        (fun r => decide (full_score "dan cohen" r.norm_name ≥ 90))).length = 4 :=
  ⟨by decide, by decide⟩

/-!  The ASCII invariant of `normalize` (claim C10). -/

/-- Every replacement string in the transliteration table is ASCII. -/
theorem udTable_ascii :
    udTable.all (fun p => p.2.data.all (fun ch => ch.toNat < 128)) = true := by decide

/-- Characters emitted for a single input character are ASCII. -/
theorem unidecodeChar_ascii (c : Char) : ∀ ch ∈ unidecodeChar c, ch.toNat < 128 := by
  intro ch hch
  unfold unidecodeChar at hch
  by_cases h : c.toNat < 128
  · rw [if_pos h] at hch
    rcases List.mem_singleton.mp hch with rfl
    exact h
  · rw [if_neg h] at hch
    cases hfind : udTable.find? (fun p => p.1 = c) with
    | none => rw [hfind] at hch; cases hch
    | some p =>
      rw [hfind] at hch
      have hp : p ∈ udTable := List.mem_of_find?_eq_some hfind
      have h1 := (List.all_eq_true.mp udTable_ascii) p hp
      have h2 := List.all_eq_true.mp h1 ch hch
      exact of_decide_eq_true h2

/-- The transliteration step only emits ASCII characters. -/
theorem pyUnidecode_ascii : ∀ l : List Char, ∀ ch ∈ pyUnidecode l, ch.toNat < 128
  | [] => by intro ch h; cases h
  | c :: cs => by
    intro ch h
    rcases List.mem_append.mp h with h | h
    · exact unidecodeChar_ascii c ch h
    · exact pyUnidecode_ascii cs ch h

/-- C10: every character of `normalize`'s output lies in the ASCII range —
the transliteration step runs last and maps every non-Latin letter into
ASCII, so normalized names are always compared within one repertoire. -/
theorem normalize_ascii (x : String) : ∀ c ∈ (normalize x).data, c.toNat < 128 := by
  intro c hc
  unfold normalize at hc
  by_cases h : x = ""
  · rw [if_pos h] at hc; cases hc
  · rw [if_neg h] at hc
    exact pyUnidecode_ascii _ c hc

/-- Witness for C10: the normalization of a CJK string is ASCII. -/
theorem normalize_ascii_witness :
    ('Z' ∈ (normalize "中").data) ∧ 'Z'.toNat < 128 :=
  ⟨by decide, normalize_ascii "中" 'Z' (by decide)⟩

/-!  Idempotence of `normalize` on stable outputs (claim C4, amended). -/

/-- Characters the second `normalize` pass maps to themselves: ASCII, not
an uppercase letter, not punctuation, and no whitespace besides the plain
space. -/
def tameChar (c : Char) : Bool :=
  decide (c.toNat < 128) && !(decide ('A' ≤ c ∧ c ≤ 'Z')) && !(isPunc c) &&
    (decide (c = ' ') || !(isPySpace c))

/-- Absence of two adjacent spaces. -/
def noDoubleSpace : List Char → Bool
  | [] => true
  | [_] => true
  | a :: b :: rest =>
    !(decide (a = ' ') && decide (b = ' ')) && noDoubleSpace (b :: rest)

/-- Strings that `normalize` maps to themselves: every character tame, no
run of two spaces, and no space at either edge. -/
def normStable (s : String) : Prop :=
  (∀ c ∈ s.data, tameChar c = true) ∧ noDoubleSpace s.data = true ∧
    s.data.head? ≠ some ' ' ∧ s.data.getLast? ≠ some ' '

instance : DecidablePred normStable :=
  fun s => inferInstanceAs (Decidable ((∀ c ∈ s.data, tameChar c = true) ∧
    noDoubleSpace s.data = true ∧ s.data.head? ≠ some ' ' ∧ s.data.getLast? ≠ some ' '))

/-- Unpacking of `tameChar`. -/
theorem tameChar_spec (c : Char) (h : tameChar c = true) :
    c.toNat < 128 ∧ ¬('A' ≤ c ∧ c ≤ 'Z') ∧ isPunc c = false ∧
      (isPySpace c = false ∨ c = ' ') := by
  unfold tameChar at h
  simp only [Bool.and_eq_true, Bool.or_eq_true, Bool.not_eq_true', decide_eq_true_eq,
    decide_eq_false_iff_not] at h
  tauto

/-- Mapping a function that fixes every member of a list is the identity. -/
theorem list_map_id_of (f : Char → Char) :
    ∀ l : List Char, (∀ c ∈ l, f c = c) → l.map f = l
  | [], _ => rfl
  | c :: cs, h => by
    rw [List.map_cons, h c (List.mem_cons_self _ _),
      list_map_id_of f cs (fun x hx => h x (List.mem_cons_of_mem _ hx))]

/-- Tame characters are fixed by the lowercase step. -/
theorem pyLowerChar_tame (c : Char) (h : tameChar c = true) : pyLowerChar c = c := by
  unfold pyLowerChar
  exact if_neg (tameChar_spec c h).2.1

/-- The punctuation pass is the identity on punctuation-free text. -/
theorem puncSubAux_id : ∀ l : List Char, (∀ c ∈ l, isPunc c = false) →
    puncSubAux false l = l
  | [], _ => rfl
  | c :: cs, h => by
    have hc := h c (List.mem_cons_self _ _)
    have ih := puncSubAux_id cs (fun x hx => h x (List.mem_cons_of_mem _ hx))
    simp [puncSubAux, hc, ih]

/-- The whitespace-collapsing pass is the identity when the only
whitespace is single interior spaces (and, when the run flag is set, the
list does not begin with a space). -/
theorem collapseWsAux_id : ∀ (l : List Char) (flag : Bool),
    (∀ c ∈ l, isPySpace c = false ∨ c = ' ') →
    noDoubleSpace l = true →
    (flag = true → l.head? ≠ some ' ') →
    collapseWsAux flag l = l
  | [], _, _, _, _ => rfl
  | c :: cs, flag, hall, hnd, hflag => by
    have hc := hall c (List.mem_cons_self _ _)
    have htail : ∀ x ∈ cs, isPySpace x = false ∨ x = ' ' :=
      fun x hx => hall x (List.mem_cons_of_mem _ hx)
    rcases hc with hc | hc
    · have ih := collapseWsAux_id cs false htail (by
        cases cs with
        | nil => rfl
        | cons b rest =>
          simp only [noDoubleSpace, Bool.and_eq_true] at hnd
          exact hnd.2) (by intro h; cases h)
      simp [collapseWsAux, hc, ih]
    · subst hc
      have hsp : isPySpace ' ' = true := by decide
      have hflag' : flag = false := by
        cases flag with
        | false => rfl
        | true => exact absurd rfl (hflag rfl)
      subst hflag'
      have hndtail : noDoubleSpace cs = true := by
        cases cs with
        | nil => rfl
        | cons b rest =>
          simp only [noDoubleSpace, Bool.and_eq_true] at hnd
          exact hnd.2
      have hhead : cs.head? ≠ some ' ' := by
        cases cs with
        | nil => simp
        | cons b rest =>
          intro hb
          have hb' : b = ' ' := by simpa using hb
          subst hb'
          simp [noDoubleSpace] at hnd
      have ih := collapseWsAux_id cs true htail hndtail (fun _ => hhead)
      simp [collapseWsAux, hsp, ih]

/-- Dropping leading whitespace is the identity when the list does not
begin with a space and its whitespace consists of spaces only. -/
theorem dropWhile_id (l : List Char) (hall : ∀ c ∈ l, isPySpace c = false ∨ c = ' ')
    (h : l.head? ≠ some ' ') : l.dropWhile isPySpace = l := by
  cases l with
  | nil => rfl
  | cons c cs =>
    rcases hall c (List.mem_cons_self _ _) with hc | hc
    · simp [List.dropWhile_cons, hc]
    · subst hc
      exact absurd rfl h

/-- The strip step is the identity on edge-space-free text. -/
theorem pyStripList_id (l : List Char) (hall : ∀ c ∈ l, isPySpace c = false ∨ c = ' ')
    (hh : l.head? ≠ some ' ') (hl : l.getLast? ≠ some ' ') : pyStripList l = l := by
  unfold pyStripList
  rw [dropWhile_id l hall hh]
  rw [dropWhile_id l.reverse (fun c hc => hall c (List.mem_reverse.mp hc)) (by
    rw [List.head?_reverse]; exact hl)]
  exact List.reverse_reverse l

/-- The transliteration step is the identity on ASCII text. -/
theorem pyUnidecode_id : ∀ l : List Char, (∀ c ∈ l, c.toNat < 128) → pyUnidecode l = l
  | [], _ => rfl
  | c :: cs, h => by
    have hc := h c (List.mem_cons_self _ _)
    have ih := pyUnidecode_id cs (fun x hx => h x (List.mem_cons_of_mem _ hx))
    simp [pyUnidecode, unidecodeChar, hc, ih]

/-- On a stable string the whole pipeline is the identity. -/
theorem normalize_stable (s : String) (h : normStable s) : normalize s = s := by
  by_cases hs : s = ""
  · rw [hs]; rfl
  · obtain ⟨hall, hnd, hh, hl⟩ := h
    have htame := fun c hc => tameChar_spec c (hall c hc)
    have hsp : ∀ c ∈ s.data, isPySpace c = false ∨ c = ' ' :=
      fun c hc => (htame c hc).2.2.2
    unfold normalize
    rw [if_neg hs]
    rw [list_map_id_of pyLowerChar s.data (fun c hc => pyLowerChar_tame c (hall c hc))]
    show String.mk (pyUnidecode (pyStripList (collapseWsAux false (puncSubAux false s.data)))) = s
    rw [puncSubAux_id s.data (fun c hc => (htame c hc).2.2.1)]
    rw [collapseWsAux_id s.data false hsp hnd (by intro h; cases h)]
    rw [pyStripList_id s.data hsp hh hl]
    rw [pyUnidecode_id s.data (fun c hc => (htame c hc).1)]

/-- C4 (amended): `normalize` is idempotent exactly on inputs whose
transliterated output is stable — no uppercase letters, no punctuation, no
whitespace beyond single interior spaces.  Every ASCII input qualifies, and
so do Hebrew names free of alef; it fails when transliteration introduces
an unstable character, such as alef (whose apostrophe the second pass's
punctuation strip removes) or a CJK entry like `"Zhong "` (uppercase and a
trailing space). -/
theorem normalize_idempotent_of_stable (x : String) (h : normStable (normalize x)) :
    normalize (normalize x) = normalize x :=
  normalize_stable (normalize x) h

example : normalize "אבי" = String.mk [Char.ofNat 39, 'b', 'y'] := by decide
example : normalize (normalize "אבי") ≠ normalize "אבי" := by decide

/-- Witness for the amended C4 at an ASCII input. -/
theorem normalize_idempotent_of_stable_witness :
    normStable (normalize "Dan--Cohen") ∧
    normalize (normalize "Dan--Cohen") = normalize "Dan--Cohen" :=
  ⟨by decide, normalize_idempotent_of_stable "Dan--Cohen" (by decide)⟩

/-!  Order facts about the Python string comparison and the sort key. -/

/-- The strict string order is asymmetric. -/
theorem strLtL_asymm : ∀ (a b : List Char), strLtL a b = true → strLtL b a = false
  | [], [] => by simp [strLtL]
  | [], _ :: _ => by simp [strLtL]
  | _ :: _, [] => by simp [strLtL]
  | a :: as, b :: bs => by
    simp only [strLtL]
    intro h
    by_cases h1 : a.toNat < b.toNat
    · rw [if_neg (show ¬ b.toNat < a.toNat by omega), if_pos h1]
    · rw [if_neg h1] at h
      by_cases h2 : b.toNat < a.toNat
      · rw [if_pos h2] at h
        exact absurd h (by simp)
      · rw [if_neg h2] at h
        rw [if_neg h2, if_neg h1]
        exact strLtL_asymm as bs h

/-- Transitivity of the negated strict string order. -/
theorem strLtL_neg_trans : ∀ (a b c : List Char),
    strLtL b a = false → strLtL c b = false → strLtL c a = false
  | a, b, [] => fun h1 h2 => by
    cases b with
    | nil =>
      cases a with
      | nil => rfl
      | cons x xs => simp [strLtL] at h1
    | cons y ys => simp [strLtL] at h2
  | a, b, _ :: _ => fun h1 h2 => by
    cases a with
    | nil => simp [strLtL]
    | cons x xs =>
      cases b with
      | nil => simp [strLtL] at h1
      | cons y ys =>
        rename_i z zs
        simp only [strLtL] at h1 h2 ⊢
        by_cases hyx : y.toNat < x.toNat
        · rw [if_pos hyx] at h1
          exact absurd h1 (by simp)
        · rw [if_neg hyx] at h1
          by_cases hzy : z.toNat < y.toNat
          · rw [if_pos hzy] at h2
            exact absurd h2 (by simp)
          · rw [if_neg hzy] at h2
            rw [if_neg (show ¬ z.toNat < x.toNat by omega)]
            by_cases hxy : x.toNat < y.toNat
            · rw [if_pos (show x.toNat < z.toNat by omega)]
            · rw [if_neg hxy] at h1
              by_cases hyz : y.toNat < z.toNat
              · rw [if_pos (show x.toNat < z.toNat by omega)]
              · rw [if_neg hyz] at h2
                rw [if_neg (show ¬ x.toNat < z.toNat by omega)]
                exact strLtL_neg_trans xs ys zs h1 h2

/-- The sort key unfolded to its two clauses. -/
theorem rowRel_iff (a b : Row × ℚ) :
    rowRel a b ↔ (b.2 < a.2 ∨ (a.2 = b.2 ∧ pyStrLe a.1.name b.1.name = true)) := by
  unfold rowRel rowLEb
  simp [Bool.or_eq_true, Bool.and_eq_true, decide_eq_true_eq]

instance : IsTotal (Row × ℚ) rowRel := ⟨by
  intro a b
  rw [rowRel_iff, rowRel_iff]
  rcases lt_trichotomy a.2 b.2 with h | h | h
  · exact Or.inr (Or.inl h)
  · by_cases hlt : strLtL b.1.name.data a.1.name.data = true
    · refine Or.inr (Or.inr ⟨h.symm, ?_⟩)
      unfold pyStrLe
      rw [strLtL_asymm _ _ hlt]
      rfl
    · refine Or.inl (Or.inr ⟨h, ?_⟩)
      unfold pyStrLe
      rw [eq_false_of_ne_true hlt]
      rfl
  · exact Or.inl (Or.inl h)⟩

instance : IsTrans (Row × ℚ) rowRel := ⟨by
  intro a b c hab hbc
  rw [rowRel_iff] at hab hbc ⊢
  rcases hab with hab | ⟨hab1, hab2⟩
  · rcases hbc with hbc | ⟨hbc1, hbc2⟩
    · exact Or.inl (lt_trans hbc hab)
    · exact Or.inl (by rw [← hbc1]; exact hab)
  · rcases hbc with hbc | ⟨hbc1, hbc2⟩
    · exact Or.inl (by rw [hab1]; exact hbc)
    · refine Or.inr ⟨hab1.trans hbc1, ?_⟩
      have h1 : strLtL b.1.name.data a.1.name.data = false := by
        simpa [pyStrLe] using hab2
      have h2 : strLtL c.1.name.data b.1.name.data = false := by
        simpa [pyStrLe] using hbc2
      simpa [pyStrLe] using strLtL_neg_trans _ _ _ h1 h2⟩

/-- Emptiness of the sorted-and-cut shortlist reflects emptiness of the
filtered tier. -/
theorem sortCands_take3_eq_nil_iff (l : List (Row × ℚ)) :
    (sortCands l).take 3 = [] ↔ l = [] := by
  constructor
  · intro h
    have h1 : ((sortCands l).take 3).length = 0 := by rw [h]; rfl
    rw [List.length_take] at h1
    have h2 : (sortCands l).length = l.length :=
      (List.perm_insertionSort rowRel l).length_eq
    rw [h2] at h1
    exact List.length_eq_zero.mp (by omega)
  · rintro rfl
    rfl

/-- Characterization of a successful `top_matches` call: the result is the
sorted tier selection cut to 3, with the `reason` column attached. -/
theorem top_matches_some (g : String) (contacts : List Row) (res : List Cand)
    (hg : g ≠ "") (hne : contacts ≠ []) (h : top_matches g contacts = some res) :
    res = ((sortCands (tierSel g contacts)).take 3).map
      (fun p => ⟨p.1, p.2, reason_for g p.1.norm_name (pyInt p.2)⟩) := by
  unfold top_matches at h
  rw [if_neg hg] at h
  cases contacts with
  | nil => exact absurd rfl hne
  | cons r rs =>
    rw [(Option.some.inj h).symm]
    unfold tierSel
    dsimp only
    by_cases hmax : maxScoreInt g (r :: rs) = AUTO_SCORE
    · rw [if_pos hmax, if_pos hmax]
    · rw [if_neg hmax, if_neg hmax]
      by_cases hf : (scoreRows g (r :: rs)).filter
          (fun p => decide (p.2 ≥ (MIN_SCORE_DISPLAY : ℚ))) = []
      · rw [if_pos hf, if_pos ((sortCands_take3_eq_nil_iff _).mpr hf)]
      · rw [if_neg hf, if_neg (fun hc => hf ((sortCands_take3_eq_nil_iff _).mp hc))]

/-- C2 (amended): `top_matches` caps its result with `head(3)` — a
successful call returns exactly the first `min 3 k` of the `k` qualifying
contacts of the active tier. -/
theorem top_matches_cap (g : String) (contacts : List Row) (res : List Cand)
    (hg : g ≠ "") (h : top_matches g contacts = some res) :
    res.length = min 3 (tierSel g contacts).length := by
  rcases eq_or_ne contacts [] with rfl | hne
  · unfold top_matches at h
    rw [if_neg hg] at h
    exact absurd h (by simp)
  · rw [top_matches_some g contacts res hg hne h]
    rw [List.length_map, List.length_take]
    congr 1
    exact (List.perm_insertionSort rowRel _).length_eq

/-- Witness for the amended C2 at a one-contact table. -/
theorem top_matches_cap_witness :
    ([(⟨⟨"x", "dan", "1"⟩, 100, "חפיפה: dan"⟩ : Cand)]).length =
      min 3 (tierSel "dan" [⟨"x", "dan", "1"⟩]).length :=
  top_matches_cap "dan" [⟨"x", "dan", "1"⟩] [⟨⟨"x", "dan", "1"⟩, 100, "חפיפה: dan"⟩]
    (by decide) (by decide)

/-- C8: on a successful call the shortlist obeys the tier policy — only
scores ≥ 90 when a perfect match exists, otherwise only scores ≥ 70 when
any contact reaches the display minimum, otherwise only scores ≥ 50 — and
is sorted by score descending, then name ascending. -/
theorem top_matches_tiering (g : String) (contacts : List Row) (res : List Cand)
    (hg : g ≠ "") (h : top_matches g contacts = some res) :
    (maxScoreInt g contacts = AUTO_SCORE → ∀ cand ∈ res, (90 : ℚ) ≤ cand.score) ∧
    (maxScoreInt g contacts ≠ AUTO_SCORE →
      (∃ p ∈ scoreRows g contacts, (MIN_SCORE_DISPLAY : ℚ) ≤ p.2) →
      ∀ cand ∈ res, (MIN_SCORE_DISPLAY : ℚ) ≤ cand.score) ∧
    (maxScoreInt g contacts ≠ AUTO_SCORE →
      (∀ p ∈ scoreRows g contacts, p.2 < (MIN_SCORE_DISPLAY : ℚ)) →
      ∀ cand ∈ res, (50 : ℚ) ≤ cand.score) ∧
    List.Pairwise (fun a b : Cand =>
      b.score < a.score ∨ (a.score = b.score ∧ pyStrLe a.row.name b.row.name = true)) res := by
  rcases eq_or_ne contacts [] with rfl | hne
  · unfold top_matches at h
    rw [if_neg hg] at h
    exact absurd h (by simp)
  · have hres := top_matches_some g contacts res hg hne h
    have hmem : ∀ cand ∈ res, ∃ p ∈ tierSel g contacts, cand.score = p.2 := by
      intro cand hc
      rw [hres] at hc
      obtain ⟨p, hp, hfp⟩ := List.mem_map.mp hc
      refine ⟨p, ?_, ?_⟩
      · exact ((List.perm_insertionSort rowRel _).mem_iff).mp (List.mem_of_mem_take hp)
      · rw [← hfp]
    refine ⟨?_, ?_, ?_, ?_⟩
    · intro hmax cand hc
      obtain ⟨p, hp, hs⟩ := hmem cand hc
      unfold tierSel at hp
      rw [if_pos hmax] at hp
      rw [hs]
      exact of_decide_eq_true (List.mem_filter.mp hp).2
    · intro hmax hex cand hc
      obtain ⟨p, hp, hs⟩ := hmem cand hc
      unfold tierSel at hp
      rw [if_neg hmax] at hp
      obtain ⟨q, hq, hq70⟩ := hex
      have hne70 : (scoreRows g contacts).filter
          (fun p => decide (p.2 ≥ (MIN_SCORE_DISPLAY : ℚ))) ≠ [] :=
        List.ne_nil_of_mem (List.mem_filter.mpr ⟨hq, decide_eq_true hq70⟩)
      rw [if_neg hne70] at hp
      rw [hs]
      exact of_decide_eq_true (List.mem_filter.mp hp).2
    · intro hmax hall cand hc
      obtain ⟨p, hp, hs⟩ := hmem cand hc
      unfold tierSel at hp
      rw [if_neg hmax] at hp
      have h70 : (scoreRows g contacts).filter
          (fun p => decide (p.2 ≥ (MIN_SCORE_DISPLAY : ℚ))) = [] := by
        rw [List.filter_eq_nil_iff]
        intro q hq
        simp only [decide_eq_true_eq, not_le]
        exact hall q hq
      rw [if_pos h70] at hp
      rw [hs]
      exact of_decide_eq_true (List.mem_filter.mp hp).2
    · rw [hres]
      rw [List.pairwise_map]
      have hsorted : List.Pairwise rowRel (sortCands (tierSel g contacts)) :=
        List.sorted_insertionSort rowRel (tierSel g contacts)
      have htake : List.Pairwise rowRel ((sortCands (tierSel g contacts)).take 3) :=
        List.Pairwise.sublist (List.take_sublist 3 _) hsorted
      exact htake.imp (fun hab => by
        rcases (rowRel_iff _ _).mp hab with h | ⟨h1, h2⟩
        · exact Or.inl h
        · exact Or.inr ⟨h1, h2⟩)

/-- Witness for C8 at a one-contact table with a perfect match. -/
theorem top_matches_tiering_witness :
    (90 : ℚ) ≤ (Cand.mk ⟨"x", "dan", "1"⟩ 100 "חפיפה: dan").score :=
  (top_matches_tiering "dan" [⟨"x", "dan", "1"⟩]
      [⟨⟨"x", "dan", "1"⟩, 100, "חפיפה: dan"⟩] (by decide) (by decide)).1
    (by decide) (Cand.mk ⟨"x", "dan", "1"⟩ 100 "חפיפה: dan") (List.mem_singleton.mpr rfl)

/-!  The greedy-match equivalence behind the amended claim C5. -/

/-- Proof-side reformulation of `firstDedup`: drop the later duplicates of
the head, recurse. -/
def firstDedupF : List String → List String
  | [] => []
  | x :: xs => x :: firstDedupF (xs.filter (fun y => decide (y ≠ x)))
termination_by l => l.length
decreasing_by
  simp_wf
  exact Nat.lt_succ_of_le (List.length_filter_le _ _)

/-- The accumulator version equals the filter version on the not-yet-seen
values. -/
theorem firstDedupAux_eq (l : List String) : ∀ seen : List String,
    firstDedupAux seen l = firstDedupF (l.filter (fun y => decide (y ∉ seen))) := by
  induction l with
  | nil =>
    intro seen
    rw [List.filter_nil, firstDedupF]
    rfl
  | cons x xs ih =>
    intro seen
    by_cases hx : x ∈ seen
    · rw [firstDedupAux, if_pos hx, List.filter_cons, if_neg (by simp [hx])]
      exact ih seen
    · rw [firstDedupAux, if_neg hx, List.filter_cons, if_pos (by simp [hx]), firstDedupF]
      congr 1
      rw [ih (x :: seen), List.filter_filter]
      congr 1
      apply List.filter_congr
      intro y _
      rcases Decidable.em (y = x) with rfl | hyx
      · simp
      · rcases Decidable.em (y ∈ seen) with hys | hys
        · simp [hyx, hys]
        · simp [hyx, hys]

/-- The executable `firstDedup` equals the filter version. -/
theorem firstDedup_eq (l : List String) : firstDedup l = firstDedupF l := by
  unfold firstDedup
  rw [firstDedupAux_eq]
  congr 1
  apply List.filter_eq_self.mpr
  intro y _
  simp

/-- Deduplication only keeps original elements. -/
theorem firstDedupF_subset : ∀ (l : List String), ∀ a ∈ firstDedupF l, a ∈ l
  | [] => by intro a ha; rw [firstDedupF] at ha; cases ha
  | x :: xs => by
    intro a ha
    rw [firstDedupF] at ha
    rcases List.mem_cons.mp ha with rfl | ha
    · exact List.mem_cons_self _ _
    · exact List.mem_cons_of_mem _
        (List.mem_of_mem_filter (firstDedupF_subset _ a ha))
termination_by l => l.length
decreasing_by
  simp_wf
  exact Nat.lt_succ_of_le (List.length_filter_le _ _)

/-- Deduplication produces distinct values. -/
theorem firstDedupF_nodup : ∀ l : List String, (firstDedupF l).Nodup
  | [] => by rw [firstDedupF]; exact List.nodup_nil
  | x :: xs => by
    rw [firstDedupF]
    refine List.nodup_cons.mpr ⟨?_, firstDedupF_nodup _⟩
    intro hx
    have := List.of_mem_filter (firstDedupF_subset _ x hx)
    simp at this
termination_by l => l.length
decreasing_by
  simp_wf
  exact Nat.lt_succ_of_le (List.length_filter_le _ _)

/-- Deduplication of a non-empty list is non-empty. -/
theorem firstDedupF_eq_nil_iff (l : List String) : firstDedupF l = [] ↔ l = [] := by
  cases l with
  | nil => simp [firstDedupF]
  | cons x xs => rw [firstDedupF]; simp

/-- Occurrences of a value on which the inner search fails can be removed
without changing its result. -/
theorem jacFind_filter_irrel (g : String) (used : List String) (c : String)
    (hc : ¬(c ∉ used ∧ fuzzy_eq g c = true)) :
    ∀ l : List String,
      jacFind g used (l.filter (fun y => decide (y ≠ c))) = jacFind g used l
  | [] => rfl
  | x :: xs => by
    by_cases hx : x = c
    · subst hx
      rw [List.filter_cons, if_neg (by simp), jacFind, if_neg hc]
      exact jacFind_filter_irrel g used x hc xs
    · rw [List.filter_cons, if_pos (by simp [hx]), jacFind, jacFind]
      by_cases hcond : x ∉ used ∧ fuzzy_eq g x = true
      · rw [if_pos hcond, if_pos hcond]
      · rw [if_neg hcond, if_neg hcond]
        exact jacFind_filter_irrel g used c hc xs

/-- The inner search of `_fuzzy_jaccard` is the first fuzzy-equal value
among the deduplicated, not-yet-consumed contact tokens. -/
theorem jacFind_eq_find? (g : String) : ∀ (n : ℕ) (l : List String), l.length ≤ n →
    ∀ used : List String,
      jacFind g used l =
        ((firstDedupF l).filter (fun y => decide (y ∉ used))).find? (fun c => fuzzy_eq g c) := by
  intro n
  induction n with
  | zero =>
    intro l hl used
    have hnil : l = [] := List.eq_nil_of_length_eq_zero (Nat.le_zero.mp hl)
    subst hnil
    rw [firstDedupF]
    rfl
  | succ n ih =>
    intro l hl used
    cases l with
    | nil =>
      rw [firstDedupF]
      rfl
    | cons c cs =>
      rw [firstDedupF]
      have hlen : (cs.filter (fun y => decide (y ≠ c))).length ≤ n := by
        have h1 := List.length_filter_le (fun y => decide (y ≠ c)) cs
        simp only [List.length_cons] at hl
        omega
      by_cases hcu : c ∈ used
      · rw [List.filter_cons, if_neg (by simp [hcu])]
        rw [jacFind, if_neg (fun h => h.1 hcu)]
        rw [← jacFind_filter_irrel g used c (fun h => h.1 hcu) cs]
        exact ih _ hlen used
      · rw [List.filter_cons, if_pos (by simp [hcu])]
        by_cases hfe : fuzzy_eq g c = true
        · rw [jacFind, if_pos ⟨hcu, hfe⟩, List.find?_cons_of_pos _ hfe]
        · rw [jacFind, if_neg (fun h => hfe h.2),
            List.find?_cons_of_neg _ (by simp [hfe])]
          rw [← jacFind_filter_irrel g used c (fun h => hfe h.2) cs]
          exact ih _ hlen used

/-- When no contact token is fuzzy-equal, the claim-side consumption also
fails. -/
theorem consumeFirst_eq_none (g : String) : ∀ L : List String,
    L.find? (fun c => fuzzy_eq g c) = none → consumeFirst g L = none
  | [] => fun _ => rfl
  | x :: xs => fun h => by
    have hx : ¬ fuzzy_eq g x = true := by
      intro hx
      rw [List.find?_cons_of_pos _ hx] at h
      cases h
    rw [List.find?_cons_of_neg _ (by simp [hx])] at h
    rw [consumeFirst, if_neg hx, consumeFirst_eq_none g xs h]
    rfl

/-- On a duplicate-free list, the claim-side consumption removes exactly
the first fuzzy-equal value. -/
theorem consumeFirst_of_find? (g : String) : ∀ (L : List String), L.Nodup →
    ∀ c : String, L.find? (fun c => fuzzy_eq g c) = some c →
      consumeFirst g L = some (L.filter (fun y => decide (y ≠ c)))
  | [], _, c => fun h => by cases h
  | x :: xs, hnd, c => fun h => by
    by_cases hx : fuzzy_eq g x = true
    · rw [List.find?_cons_of_pos _ hx] at h
      obtain rfl : x = c := Option.some.inj h
      rw [consumeFirst, if_pos hx, List.filter_cons, if_neg (by simp)]
      rw [List.filter_eq_self.mpr (fun y hy => by
        simp only [decide_eq_true_eq]
        exact fun hyx => (List.nodup_cons.mp hnd).1 (hyx ▸ hy))]
    · rw [List.find?_cons_of_neg _ (by simp [hx])] at h
      have hc := List.find?_some h
      rw [consumeFirst, if_neg hx, consumeFirst_of_find? g xs (List.nodup_cons.mp hnd).2 c h]
      show some (x :: xs.filter (fun y => decide (y ≠ c))) = _
      rw [List.filter_cons, if_pos (by
        simp only [decide_eq_true_eq]
        exact fun hxc => hx (hxc ▸ hc))]

/-- Each claim-side consumption removes exactly one element. -/
theorem consumeFirst_length (g : String) : ∀ (L L' : List String),
    consumeFirst g L = some L' → L'.length + 1 = L.length
  | [], _ => by intro h; cases h
  | x :: xs, L' => by
    by_cases hx : fuzzy_eq g x = true
    · rw [consumeFirst, if_pos hx]
      intro h
      rw [← Option.some.inj h]
      rfl
    · rw [consumeFirst, if_neg hx]
      cases hcf : consumeFirst g xs with
      | none =>
        intro h
        simp at h
      | some l =>
        intro h
        have h1 := consumeFirst_length g xs l hcf
        have h2 : x :: l = L' := by simpa using h
        rw [← h2]
        simp only [List.length_cons]
        omega

/-- The greedy match count never exceeds the contact-list length. -/
theorem greedyMatch_le : ∀ (gs L : List String), greedyMatch gs L ≤ L.length
  | [], _ => Nat.zero_le _
  | g :: gs, L => by
    cases hcf : consumeFirst g L with
    | none =>
      simp only [greedyMatch, hcf]
      exact greedyMatch_le gs L
    | some L' =>
      simp only [greedyMatch, hcf]
      have h1 := consumeFirst_length g L L' hcf
      have h2 := greedyMatch_le gs L'
      omega

/-- The loop of `_fuzzy_jaccard`, which skips values in its `used` set,
computes the occurrence-level greedy match count over the deduplicated
unconsumed contact tokens. -/
theorem jacMatched_eq_greedy : ∀ (gs cs used : List String),
    jacMatched gs cs used =
      greedyMatch gs ((firstDedupF cs).filter (fun y => decide (y ∉ used)))
  | [], _, _ => rfl
  | g :: gs, cs, used => by
    have hjf := jacFind_eq_find? g cs.length cs le_rfl used
    cases hfind : ((firstDedupF cs).filter
        (fun y => decide (y ∉ used))).find? (fun c => fuzzy_eq g c) with
    | none =>
      simp only [jacMatched, hjf, hfind, greedyMatch, consumeFirst_eq_none g _ hfind]
      exact jacMatched_eq_greedy gs cs used
    | some c =>
      have hnodup : ((firstDedupF cs).filter (fun y => decide (y ∉ used))).Nodup :=
        (firstDedupF_nodup cs).filter _
      simp only [jacMatched, hjf, hfind, greedyMatch,
        consumeFirst_of_find? g _ hnodup c hfind]
      rw [jacMatched_eq_greedy gs cs (c :: used), List.filter_filter]
      refine congrArg (· + 1) (congrArg (greedyMatch gs) (List.filter_congr ?_))
      intro y _
      rcases Decidable.em (y = c) with rfl | hyc
      · simp
      · rcases Decidable.em (y ∈ used) with hys | hys
        · simp [hyc, hys]
        · simp [hyc, hys]

/-- C5 (amended): the fuzzy-Jaccard signal equals the greedy one-to-one
match count — consumption tracked by value, hence equal to the
occurrence-level greedy count over the deduplicated contact tokens —
divided by `|set(G)| + |set(C)| - matches`, defaulting to 1.0 exactly when
both sides are empty. -/
theorem fuzzy_jaccard_eq_greedy_dedup (gs cs : List String) :
    fuzzy_jaccard gs cs =
      if gs = [] ∧ cs = [] then 1
      else qdiv (greedyMatch gs (firstDedup cs) : ℚ)
        ((((firstDedup gs).length : ℤ) + ((firstDedup cs).length : ℤ) -
          (greedyMatch gs (firstDedup cs) : ℤ) : ℤ) : ℚ) := by
  have hm : jacMatched gs cs [] = greedyMatch gs (firstDedup cs) := by
    rw [jacMatched_eq_greedy gs cs [], firstDedup_eq]
    congr 1
    apply List.filter_eq_self.mpr
    intro y _
    simp
  have hle : greedyMatch gs (firstDedup cs) ≤ (firstDedup cs).length := by
    have := greedyMatch_le gs (firstDedup cs)
    omega
  have hiff : (((firstDedup gs).length : ℤ) + ((firstDedup cs).length : ℤ) -
      (greedyMatch gs (firstDedup cs) : ℤ) = 0) ↔ (gs = [] ∧ cs = []) := by
    constructor
    · intro h
      have hgs : (firstDedup gs).length = 0 := by omega
      have hcs0 : (greedyMatch gs (firstDedup cs) : ℤ) = (firstDedup cs).length := by omega
      have hgs' : gs = [] := by
        rw [firstDedup_eq] at hgs
        exact (firstDedupF_eq_nil_iff gs).mp (List.eq_nil_of_length_eq_zero hgs)
      subst hgs'
      have : greedyMatch ([] : List String) (firstDedup cs) = 0 := rfl
      rw [this] at hcs0
      have hlen : (firstDedup cs).length = 0 := by omega
      rw [firstDedup_eq] at hlen
      exact ⟨rfl, (firstDedupF_eq_nil_iff cs).mp (List.eq_nil_of_length_eq_zero hlen)⟩
    · rintro ⟨rfl, rfl⟩
      rfl
  unfold fuzzy_jaccard
  dsimp only
  rw [hm]
  by_cases hc : gs = [] ∧ cs = []
  · rw [if_pos (by exact_mod_cast hiff.mpr hc), if_pos hc]
  · rw [if_neg (fun h => hc (hiff.mp (by exact_mod_cast h))), if_neg hc]

end GuestMatch
